import Mathlib

/-!
Shallow embedding of `team_metrics.py` / `capitalizacao.py` (two near-identical
GitHub-project reporting scripts) and proofs about their specification.

The two scripts share (byte-identical, up to the assignee column) the helpers
`run_query`, `get_project_id_from_url`, `get_project_items`, `extract_type`,
`extract_scope`, the date/month filter of the main block and the per-group
count/percentage report.  The embedding below translates those helpers from
the Python source.  Python strings are modelled through their character
lists so that every definition evaluates on concrete inputs.
-/

/-! ## Model of the Python string primitives used by the scripts -/

/-- Lexicographic comparison of character lists by code point.  Models the
Python string comparison `a <= b` used in the chained date check. -/
def charLe : List Char → List Char → Bool
  | [], _ => true
  | _ :: _, [] => false
  | a :: as, b :: bs => if a < b then true else if b < a then false else charLe as bs

/-- Python `a <= b` on strings (lexicographic by code point). -/
def pyLe (a b : String) : Bool := charLe a.data b.data

/-- Python `str.lower()` (the field names compared here are ASCII). -/
def pyLower (s : String) : String := ⟨s.data.map Char.toLower⟩

/-- Python `str.strip()`: remove leading and trailing whitespace. -/
def pyStrip (s : String) : String :=
  ⟨((s.data.dropWhile Char.isWhitespace).reverse.dropWhile Char.isWhitespace).reverse⟩

/-- Python truthiness filter on an optional string: `None` and the empty
string are falsy, everything else passes through.  Models the `x or y`
chains and the `if not v` guards of the scripts. -/
def pyTruthy : Option String → Option String
  | some s => if s.data.isEmpty then none else some s
  | none => none

/-! ## JSON values and the GraphQL client `run_query`
(`team_metrics.py` lines 31-38, `capitalizacao.py` lines 27-34) -/

/-- A decoded JSON value, as produced by `response.json()`. -/
inductive Json where
  | null : Json
  | bool (b : Bool) : Json
  | num (n : Int) : Json
  | str (s : String) : Json
  | arr (elems : List Json) : Json
  | obj (fields : List (String × Json)) : Json

/-- Key lookup in a decoded JSON object, `none` on any other shape.
Models `data["errors"]` / the membership test `"errors" in data` on the
decoded GraphQL response (always a JSON object). -/
def Json.getKey : Json → String → Option Json
  | .obj fields, k => fields.lookup k
  | _, _ => none

/-- The two failure modes of `run_query`: a non-200 HTTP status (the raised
message carries the status and the body text) and a GraphQL-level error
(the raised message carries the raw `errors` value). -/
inductive QueryError where
  | transport (status : Nat) (body : String) : QueryError
  | graphql (errors : Json) : QueryError

/-- Embedding of `run_query` over an already-received HTTP response,
given as status code, body text and decoded JSON body.  Mirrors the source:
raise on `status_code != 200`, raise on a top-level `"errors"` key, and
otherwise `return data` — the whole decoded response. -/
def run_query (status : Nat) (body : String) (decoded : Json) : Except QueryError Json :=
  if status ≠ 200 then
    .error (.transport status body)
  else
    match decoded.getKey "errors" with
    | some errs => .error (.graphql errs)
    | none => .ok decoded

/-! ## Field-value records and the extractors
(`team_metrics.py` lines 119-164, `capitalizacao.py` lines 114-153) -/

/-- One node of `item["fieldValues"]["nodes"]`.  `skipEntry` stands for every
node that the loops skip up front: a `None`/empty node, a node without a
`"field"` key, or one whose `"field"` value is falsy.  `entry` carries the
field name (`field["field"].get("name", "")`, so a plain string with `""`
for an absent key) and the three mutually exclusive value shapes
single-select `name`, free text `text` and numeric `number` (with `none`
for an absent or null key). -/
inductive FVNode where
  | skipEntry : FVNode
  | entry (fieldName : String) (name : Option String) (text : Option String)
      (number : Option Int) : FVNode

/-- The issue payload under `item["content"]`, restricted to the keys the
extractors and the date filter read.  `closedAt` is `none` for an absent or
null key; `issueType` is `none` when the key is absent or falsy, and
otherwise carries the result of `.get("name")`. -/
structure IssueContent where
  closedAt : Option String
  issueType : Option (Option String)

/-- One raw project item.  `fieldValues` is `none` when `"fieldValues"` is
missing from the item or has no `"nodes"` key; `content` is `none` when
`item.get("content")` is absent or falsy. -/
structure Item where
  fieldValues : Option (List FVNode)
  content : Option IssueContent

/-- The configured custom-field names (`KIND_FIELD` etc. in both scripts). -/
def KIND_FIELD : String := "Kind"

/-- Custom-field name for the secondary type taxonomy. -/
def TYPE_FIELD : String := "Type"

/-- Custom-field name for the scope column. -/
def SCOPE_FIELD : String := "Scope"

/-- The value coercion shared by both extractors:
`field.get("name") or field.get("text") or (str(field["number"]) if ... else None)`.
Falsy (`None`/empty) shapes fall through; a number is coerced via its
decimal string form. -/
def fieldValueOf (name text : Option String) (number : Option Int) : Option String :=
  match pyTruthy name with
  | some v => some v
  | none =>
    match pyTruthy text with
    | some v => some v
    | none => number.map (fun n => toString n)

/-- The coerced value of a node provided its (stripped, lowercased) field
name equals `target`; `none` when the node is skipped, its value is falsy,
or the name differs.  This is the per-node content of one loop iteration of
the extractors. -/
def nodeNamedValue (target : String) : FVNode → Option String
  | .skipEntry => none
  | .entry fn name text number =>
    match fieldValueOf name text number with
    | none => none
    | some v => if pyLower (pyStrip fn) = target then some v else none

/-- One iteration of the `extract_type` loop, updating the running pair
`(kind_value, type_value)` exactly as the Python `if`/`elif` does (a later
match overwrites an earlier one). -/
def scanStep (acc : Option String × Option String) (node : FVNode) :
    Option String × Option String :=
  match node with
  | .skipEntry => acc
  | .entry fn name text number =>
    match fieldValueOf name text number with
    | none => acc
    | some v =>
      if pyLower (pyStrip fn) = pyLower KIND_FIELD then (some v, acc.2)
      else if pyLower (pyStrip fn) = pyLower TYPE_FIELD then (acc.1, some v)
      else acc

/-- The whole `extract_type` loop over `item["fieldValues"]["nodes"]`. -/
def scan_kind_type (nodes : List FVNode) : Option String × Option String :=
  nodes.foldl scanStep (none, none)

/-- The node list the loops run over: `item["fieldValues"]["nodes"]` when
present, otherwise the loop body never executes (modelled as `[]`). -/
def field_entries (item : Item) : List FVNode := item.fieldValues.getD []

/-- Embedding of `extract_type` (`team_metrics.py` 119-143,
`capitalizacao.py` 114-138): prefer the scanned Kind value, then the Type
value, then `content["issueType"]["name"]`, then the sentinel
`"Desconhecido"`. -/
def extract_type (item : Item) : String :=
  match pyTruthy (scan_kind_type (field_entries item)).1 with
  | some v => v
  | none =>
    match pyTruthy (scan_kind_type (field_entries item)).2 with
    | some v => v
    | none =>
      match item.content with
      | some issue =>
        match issue.issueType with
        | some nm => (pyTruthy nm).getD "Desconhecido"
        | none => "Desconhecido"
      | none => "Desconhecido"

/-- The early-returning loop of `extract_scope`: first node whose field name
matches `SCOPE_FIELD` with a truthy coerced value. -/
def find_scope : List FVNode → Option String
  | [] => none
  | node :: rest =>
    match nodeNamedValue (pyLower SCOPE_FIELD) node with
    | some v => some v
    | none => find_scope rest

/-- Embedding of `extract_scope` (`team_metrics.py` 145-158,
`capitalizacao.py` 140-153). -/
def extract_scope (item : Item) : String :=
  match find_scope (field_entries item) with
  | some v => v
  | none => "Sem Scope"

/-- The truthy coerced values of all fields of `item` whose stripped,
lowercased name equals `target`, in list order.  Specification-side view of
the scan, used to state the priority/last-wins laws. -/
def values_named (target : String) (item : Item) : List String :=
  (field_entries item).filterMap (nodeNamedValue target)

/-- The value the scan of `extract_type` retains for `target`: the last
truthy match in list order (each match overwrites the previous one). -/
def lastNamed (target : String) : List FVNode → Option String
  | [] => none
  | node :: rest =>
    match lastNamed target rest with
    | some v => some v
    | none => nodeNamedValue target node

/-! ## Paginated item fetch `get_project_items`
(`team_metrics.py` lines 108-117, `capitalizacao.py` lines 103-112) -/

/-- One page of the `items(first: 50, after: $cursor)` edge as the loop sees
it: the item nodes, `pageInfo.hasNextPage` and `pageInfo.endCursor` (the
cursor the loop passes to the next `run_query` call). -/
structure Page (α : Type) where
  nodes : List α
  hasNextPage : Bool
  endCursor : Option String

/-- Embedding of the `get_project_items` loop over the trace of successive
`run_query` responses: extend the result list with the page's nodes and
continue (with the page's `endCursor`) exactly while `hasNextPage` holds. -/
def get_project_items {α : Type} : List (Page α) → List α
  | [] => []
  | p :: rest => p.nodes ++ (if p.hasNextPage then get_project_items rest else [])

/-- A response trace `pages` paginates the total item sequence `total`:
every page but the last reports `hasNextPage = true`, the last reports
`false`, and the concatenated nodes are `total`.  Page boundaries are
otherwise arbitrary. -/
inductive Paginates {α : Type} : List (Page α) → List α → Prop
  | last (p : Page α) (h : p.hasNextPage = false) : Paginates [p] p.nodes
  | cons (p : Page α) (rest : List (Page α)) (total : List α)
      (h : p.hasNextPage = true) (ht : Paginates rest total) :
      Paginates (p :: rest) (p.nodes ++ total)

/-! ## Project URL resolution `get_project_id_from_url`
(`team_metrics.py` lines 40-66, `capitalizacao.py` lines 36-62) -/

/-- Consume an exact literal character sequence, returning the remainder. -/
def stripLit : List Char → List Char → Option (List Char)
  | [], cs => some cs
  | _ :: _, [] => none
  | l :: ls, c :: cs => if c = l then stripLit ls cs else none

/-- The character class `[^/]` of the pattern. -/
def notSlash (c : Char) : Bool := c ≠ '/'

/-- Match the regex `github.com/(orgs|users)/([^/]+)/projects/(\d+)` at the
start of `cs`, returning the three captured groups.  The unescaped `.` of
the pattern matches an arbitrary character; `[^/]+` is a maximal nonempty
run of non-slash characters (the following literal `/` forbids a shorter
match); `\d+` captures a maximal nonempty digit run. -/
def matchAt (cs : List Char) : Option (String × String × String) :=
  match stripLit "github".data cs with
  | none => none
  | some [] => none
  | some (_ :: afterDot) =>
    match stripLit "com/".data afterDot with
    | none => none
    | some cs1 =>
      match
        (match stripLit "orgs/".data cs1 with
         | some r => some (("orgs" : String), r)
         | none =>
           match stripLit "users/".data cs1 with
           | some r => some (("users" : String), r)
           | none => none) with
      | none => none
      | some (kind, cs2) =>
        if (cs2.takeWhile notSlash).isEmpty then none
        else
          match stripLit "/projects/".data (cs2.dropWhile notSlash) with
          | none => none
          | some cs4 =>
            if (cs4.takeWhile Char.isDigit).isEmpty then none
            else some (kind, ⟨cs2.takeWhile notSlash⟩, ⟨cs4.takeWhile Char.isDigit⟩)

/-- Try `matchAt` at every start position, leftmost first.  Models
`re.search` for this pattern. -/
def searchAux : List Char → Option (String × String × String)
  | [] => none
  | c :: rest =>
    match matchAt (c :: rest) with
    | some g => some g
    | none => searchAux rest

/-- Embedding of `re.search(r"github.com/(orgs|users)/([^/]+)/projects/(\d+)", url)`. -/
def re_search (url : String) : Option (String × String × String) := searchAux url.data

/-- The GraphQL lookup `get_project_id_from_url` dispatches to: the
organization-scoped query or the user-scoped query, with the bound
`login`/`number` variables. -/
inductive ProjectQuery where
  | org (login : String) (number : Nat) : ProjectQuery
  | user (login : String) (number : Nat) : ProjectQuery
deriving DecidableEq

/-- Python `int(number)` on the digit-run capture of the pattern: the value
of a nonempty decimal digit string. -/
def strToNat (s : String) : Nat :=
  s.data.foldl (fun n c => n * 10 + (c.toNat - '0'.toNat)) 0

/-- Embedding of `get_project_id_from_url` up to the network call: parse the
URL, raise `ValueError` (with the source's message) when the pattern does
not match, otherwise dispatch on the captured owner kind, binding the
captured name and `int(number)` as query variables. -/
def get_project_id_from_url (url : String) : Except String ProjectQuery :=
  match re_search url with
  | none => .error ("URL inválida de project: " ++ url)
  | some (kind, name, number) =>
    if kind = "orgs" then .ok (.org name (strToNat number))
    else .ok (.user name (strToNat number))

/-- Declarative reading of one match of the pattern at the start of a
character list: the list begins with `github`, an arbitrary character,
`com/`, the owner kind `orgs` or `users`, `/`, a nonempty slash-free name,
`/projects/` and a nonempty digit run. -/
def patternAt (cs : List Char) : Prop :=
  ∃ (dot : Char) (kind : String) (name digits rest : List Char),
    cs = "github".data ++ dot :: "com/".data ++ kind.data ++ '/' ::
        (name ++ "/projects/".data ++ digits ++ rest) ∧
    (kind = "orgs" ∨ kind = "users") ∧
    name ≠ [] ∧ (∀ c ∈ name, c ≠ '/') ∧
    digits ≠ [] ∧ (∀ c ∈ digits, c.isDigit = true)

/-- A URL contains a substring matching the project pattern. -/
def matches_pattern (url : String) : Prop := ∃ i, patternAt (url.data.drop i)

/-! ## Date filter of `team_metrics.py` (`__main__`, lines 177-202) -/

/-- Inclusive range start, `team_metrics.py` line 21. -/
def START_DATE : String := "2025-10-07"

/-- Inclusive range end, `team_metrics.py` line 22. -/
def END_DATE : String := "2025-12-10"

/-- The calendar date of an ISO 8601 timestamp:
`parser.isoparse(s).date().isoformat()` equals the first ten characters of
`s` for the fixed-width `YYYY-MM-DD...` timestamps the API returns. -/
def iso_date (s : String) : String := ⟨s.data.take 10⟩

/-- The per-item guard of the `team_metrics.py` main loop: skip items
without truthy `content` or truthy `closedAt`, then keep exactly the items
with `START_DATE <= closed.date().isoformat() <= END_DATE` (inclusive
chained string comparison). -/
def passes_date_filter (item : Item) : Bool :=
  match item.content with
  | none => false
  | some issue =>
    match issue.closedAt with
    | none => false
    | some s =>
      if s.data.isEmpty then false
      else pyLe START_DATE (iso_date s) && pyLe (iso_date s) END_DATE

/-! ## Per-group type counts and percentages
(`capitalizacao.py` lines 194-215, `team_metrics.py` lines 204-220) -/

/-- First-occurrence-order duplicate removal, tracking the already seen
keys.  Reproduces the iteration order of a Python `Counter`. -/
def uniqAux (seen : List String) : List String → List String
  | [] => []
  | t :: rest => if t ∈ seen then uniqAux seen rest else t :: uniqAux (t :: seen) rest

/-- The distinct elements of a list in first-occurrence order. -/
def uniq (l : List String) : List String := uniqAux [] l

/-- Embedding of `Counter([i["type"] for i in issues])`: each distinct type
with its multiplicity, in first-occurrence order. -/
def type_counter (types : List String) : List (String × Nat) :=
  (uniq types).map (fun t => (t, types.count t))

/-- The reported share of one type: `100.0 * count / total`, read as exact
rational arithmetic. -/
def percentage (count total : Nat) : ℚ := 100 * (count : ℚ) / (total : ℚ)

/-! ## Auxiliary lemmas: decimal strings are never empty -/

lemma toDigitsCore_length_le (b : Nat) : ∀ (fuel n : Nat) (ds : List Char),
    ds.length ≤ (Nat.toDigitsCore b fuel n ds).length := by
  intro fuel
  induction fuel with
  | zero => intro n ds; simp [Nat.toDigitsCore]
  | succ f ih =>
    intro n ds
    simp only [Nat.toDigitsCore]
    split
    · simp
    · exact le_trans (by simp) (ih _ _)

lemma toDigits_ne_nil (b n : Nat) : Nat.toDigits b n ≠ [] := by
  simp only [Nat.toDigits, Nat.toDigitsCore]
  split
  · simp
  · intro h
    have hlen := toDigitsCore_length_le b n (n / b) [Nat.digitChar (n % b)]
    rw [h] at hlen
    simp at hlen

lemma nat_repr_ne_empty (n : Nat) : Nat.repr n ≠ "" := by
  simp only [Nat.repr]
  intro h
  have hdata := congrArg String.data h
  simp only [List.asString] at hdata
  exact toDigits_ne_nil 10 n hdata

lemma int_toString_ne_empty (n : Int) : toString n ≠ "" := by
  cases n with
  | ofNat m => simpa [toString, Int.repr] using nat_repr_ne_empty m
  | negSucc m =>
    simp only [toString, Int.repr]
    intro h
    have hdata := congrArg String.data h
    simp [String.data_append] at hdata

lemma string_ne_empty_iff (s : String) : s ≠ "" ↔ s.data ≠ [] := by
  constructor
  · intro h hd
    exact h (String.ext hd)
  · intro h he
    exact h (congrArg String.data he)

/-! ## Auxiliary lemmas: the extractors -/

lemma pyTruthy_some_ne {o : Option String} {v : String} (h : pyTruthy o = some v) :
    v.data ≠ [] := by
  cases o with
  | none => simp [pyTruthy] at h
  | some s =>
    simp only [pyTruthy] at h
    by_cases hs : s.data.isEmpty
    · rw [if_pos hs] at h; exact absurd h (by simp)
    · rw [if_neg hs] at h
      have hsv : s = v := by simpa using h
      subst hsv
      simpa [List.isEmpty_iff] using hs

lemma fieldValueOf_ne_empty {name text : Option String} {number : Option Int} {v : String}
    (h : fieldValueOf name text number = some v) : v ≠ "" := by
  rw [string_ne_empty_iff]
  unfold fieldValueOf at h
  cases hn : pyTruthy name with
  | some w =>
    rw [hn] at h
    have hwv : w = v := by simpa using h
    subst hwv
    exact pyTruthy_some_ne hn
  | none =>
    rw [hn] at h
    cases ht : pyTruthy text with
    | some w =>
      rw [ht] at h
      have hwv : w = v := by simpa using h
      subst hwv
      exact pyTruthy_some_ne ht
    | none =>
      rw [ht] at h
      cases number with
      | none => simp at h
      | some n =>
        have hnv : toString n = v := by simpa using h
        subst hnv
        have := int_toString_ne_empty n
        rwa [string_ne_empty_iff] at this

lemma nodeNamedValue_ne_empty {target : String} {node : FVNode} {v : String}
    (h : nodeNamedValue target node = some v) : v ≠ "" := by
  cases node with
  | skipEntry => simp [nodeNamedValue] at h
  | entry fn name text number =>
    simp only [nodeNamedValue] at h
    cases hf : fieldValueOf name text number with
    | none => rw [hf] at h; exact absurd h (by simp)
    | some w =>
      rw [hf] at h
      have h' : (if pyLower (pyStrip fn) = target then some w else none) = some v := h
      by_cases hn : pyLower (pyStrip fn) = target
      · rw [if_pos hn] at h'
        have hwv : w = v := by simpa using h'
        subst hwv
        exact fieldValueOf_ne_empty hf
      · rw [if_neg hn] at h'; exact absurd h' (by simp)

lemma pyTruthy_of_ne_empty {v : String} (h : v ≠ "") : pyTruthy (some v) = some v := by
  simp only [pyTruthy]
  rw [if_neg]
  simpa [List.isEmpty_iff, ← string_ne_empty_iff] using h

lemma scanStep_fst (acc : Option String × Option String) (node : FVNode) :
    (scanStep acc node).1 =
      match nodeNamedValue (pyLower KIND_FIELD) node with
      | some v => some v
      | none => acc.1 := by
  cases node with
  | skipEntry => rfl
  | entry fn name text number =>
    cases hf : fieldValueOf name text number with
    | none => simp [scanStep, nodeNamedValue, hf]
    | some v =>
      simp only [scanStep, nodeNamedValue, hf]
      by_cases hk : pyLower (pyStrip fn) = pyLower KIND_FIELD
      · rw [if_pos hk, if_pos hk]
      · rw [if_neg hk, if_neg hk]
        by_cases ht : pyLower (pyStrip fn) = pyLower TYPE_FIELD
        · rw [if_pos ht]
        · rw [if_neg ht]

lemma scanStep_snd (acc : Option String × Option String) (node : FVNode) :
    (scanStep acc node).2 =
      match nodeNamedValue (pyLower TYPE_FIELD) node with
      | some v => some v
      | none => acc.2 := by
  cases node with
  | skipEntry => rfl
  | entry fn name text number =>
    cases hf : fieldValueOf name text number with
    | none => simp [scanStep, nodeNamedValue, hf]
    | some v =>
      simp only [scanStep, nodeNamedValue, hf]
      by_cases hk : pyLower (pyStrip fn) = pyLower KIND_FIELD
      · rw [if_pos hk, hk,
          if_neg (show ¬pyLower KIND_FIELD = pyLower TYPE_FIELD from by decide)]
      · rw [if_neg hk]
        by_cases ht : pyLower (pyStrip fn) = pyLower TYPE_FIELD
        · rw [if_pos ht, if_pos ht]
        · rw [if_neg ht, if_neg ht]

lemma foldl_scanStep_fst :
    ∀ (nodes : List FVNode) (acc : Option String × Option String),
      (nodes.foldl scanStep acc).1 =
        match lastNamed (pyLower KIND_FIELD) nodes with
        | some v => some v
        | none => acc.1 := by
  intro nodes
  induction nodes with
  | nil => intro acc; rfl
  | cons node rest ih =>
    intro acc
    simp only [List.foldl_cons, lastNamed]
    rw [ih]
    cases lastNamed (pyLower KIND_FIELD) rest with
    | some v => rfl
    | none => exact scanStep_fst acc node

lemma foldl_scanStep_snd :
    ∀ (nodes : List FVNode) (acc : Option String × Option String),
      (nodes.foldl scanStep acc).2 =
        match lastNamed (pyLower TYPE_FIELD) nodes with
        | some v => some v
        | none => acc.2 := by
  intro nodes
  induction nodes with
  | nil => intro acc; rfl
  | cons node rest ih =>
    intro acc
    simp only [List.foldl_cons, lastNamed]
    rw [ih]
    cases lastNamed (pyLower TYPE_FIELD) rest with
    | some v => rfl
    | none => exact scanStep_snd acc node

lemma scan_kind_type_fst (nodes : List FVNode) :
    (scan_kind_type nodes).1 = lastNamed (pyLower KIND_FIELD) nodes := by
  unfold scan_kind_type
  rw [foldl_scanStep_fst]
  cases lastNamed (pyLower KIND_FIELD) nodes <;> rfl

lemma scan_kind_type_snd (nodes : List FVNode) :
    (scan_kind_type nodes).2 = lastNamed (pyLower TYPE_FIELD) nodes := by
  unfold scan_kind_type
  rw [foldl_scanStep_snd]
  cases lastNamed (pyLower TYPE_FIELD) nodes <;> rfl

lemma lastNamed_mem {target : String} :
    ∀ {nodes : List FVNode} {v : String},
      lastNamed target nodes = some v → v ∈ nodes.filterMap (nodeNamedValue target) := by
  intro nodes
  induction nodes with
  | nil => intro v h; simp [lastNamed] at h
  | cons node rest ih =>
    intro v h
    simp only [lastNamed] at h
    cases hr : lastNamed target rest with
    | some w =>
      rw [hr] at h
      have hwv : w = v := by simpa using h
      subst hwv
      have hmem := ih hr
      cases hn : nodeNamedValue target node <;>
        simp [List.filterMap_cons, hn, hmem]
    | none =>
      rw [hr] at h
      have h' : nodeNamedValue target node = some v := h
      simp [List.filterMap_cons, h']

lemma lastNamed_eq_none {target : String} {nodes : List FVNode}
    (h : nodes.filterMap (nodeNamedValue target) = []) : lastNamed target nodes = none := by
  cases hl : lastNamed target nodes with
  | none => rfl
  | some v =>
    have := lastNamed_mem hl
    rw [h] at this
    simp at this

lemma extract_type_of_kind {item : Item} {v : String}
    (h : lastNamed (pyLower KIND_FIELD) (field_entries item) = some v) :
    extract_type item = v := by
  have hne : v ≠ "" := by
    have hmem := lastNamed_mem h
    obtain ⟨node, _, hnode⟩ := List.mem_filterMap.mp hmem
    exact nodeNamedValue_ne_empty hnode
  unfold extract_type
  rw [scan_kind_type_fst, h, pyTruthy_of_ne_empty hne]

lemma find_scope_eq_head (nodes : List FVNode) :
    find_scope nodes = (nodes.filterMap (nodeNamedValue (pyLower SCOPE_FIELD))).head? := by
  induction nodes with
  | nil => rfl
  | cons node rest ih =>
    simp only [find_scope, List.filterMap_cons]
    cases nodeNamedValue (pyLower SCOPE_FIELD) node with
    | some v => rfl
    | none => exact ih

/-! ## Auxiliary lemmas: pagination -/

lemma get_project_items_eq {α : Type} {pages : List (Page α)} {total : List α}
    (h : Paginates pages total) : get_project_items pages = total := by
  induction h with
  | last p hp => simp [get_project_items, hp]
  | cons p rest total hp ht ih => simp [get_project_items, hp, ih]

/-! ## Auxiliary lemmas: distinct keys and counts -/

lemma mem_uniqAux (x : String) :
    ∀ (l seen : List String), x ∈ uniqAux seen l ↔ x ∈ l ∧ x ∉ seen := by
  intro l
  induction l with
  | nil => intro seen; simp [uniqAux]
  | cons t rest ih =>
    intro seen
    by_cases h : t ∈ seen
    · rw [uniqAux, if_pos h, ih]
      constructor
      · rintro ⟨hx, hs⟩
        exact ⟨List.mem_cons_of_mem _ hx, hs⟩
      · rintro ⟨hx, hs⟩
        rcases List.mem_cons.mp hx with rfl | hx
        · exact absurd h hs
        · exact ⟨hx, hs⟩
    · rw [uniqAux, if_neg h]
      constructor
      · intro hx
        rcases List.mem_cons.mp hx with rfl | hx
        · exact ⟨List.mem_cons_self _ _, h⟩
        · obtain ⟨hr, hs⟩ := (ih (t :: seen)).mp hx
          refine ⟨List.mem_cons_of_mem _ hr, fun hmem => hs (List.mem_cons_of_mem _ hmem)⟩
      · rintro ⟨hx, hs⟩
        rcases List.mem_cons.mp hx with rfl | hx
        · exact List.mem_cons_self _ _
        · by_cases hxt : x = t
          · subst hxt; exact List.mem_cons_self _ _
          · refine List.mem_cons_of_mem _ ((ih (t :: seen)).mpr ⟨hx, ?_⟩)
            intro hmem
            rcases List.mem_cons.mp hmem with h' | h'
            · exact hxt h'
            · exact hs h'

lemma nodup_uniqAux : ∀ (l seen : List String), (uniqAux seen l).Nodup := by
  intro l
  induction l with
  | nil => intro seen; simp [uniqAux]
  | cons t rest ih =>
    intro seen
    by_cases h : t ∈ seen
    · rw [uniqAux, if_pos h]; exact ih seen
    · rw [uniqAux, if_neg h]
      refine List.nodup_cons.mpr ⟨?_, ih (t :: seen)⟩
      intro hmem
      exact ((mem_uniqAux t rest (t :: seen)).mp hmem).2 (List.mem_cons_self _ _)

lemma mem_uniq (x : String) (l : List String) : x ∈ uniq l ↔ x ∈ l := by
  unfold uniq
  rw [mem_uniqAux]
  simp

lemma nodup_uniq (l : List String) : (uniq l).Nodup := nodup_uniqAux l []

lemma uniq_toFinset (l : List String) : (uniq l).toFinset = l.toFinset := by
  ext x
  simp [mem_uniq]

lemma sum_counts (l : List String) :
    ((uniq l).map (fun t => l.count t)).sum = l.length := by
  rw [← List.sum_toFinset _ (nodup_uniq l), uniq_toFinset]
  have h := Multiset.toFinset_sum_count_eq (l : Multiset String)
  simp only [List.toFinset_coe, Multiset.coe_count, Multiset.coe_card] at h
  exact h

/-! ## Auxiliary lemmas: the URL pattern matcher -/

lemma stripLit_append : ∀ (l r : List Char), stripLit l (l ++ r) = some r := by
  intro l
  induction l with
  | nil => intro r; rfl
  | cons c cs ih => intro r; simp [stripLit, ih]

lemma stripLit_sound : ∀ {l cs r : List Char}, stripLit l cs = some r → cs = l ++ r := by
  intro l
  induction l with
  | nil =>
    intro cs r h
    simpa [stripLit] using (by simpa [stripLit] using h : cs = r)
  | cons c cs ih =>
    intro ds r h
    cases ds with
    | nil => simp [stripLit] at h
    | cons d ds =>
      simp only [stripLit] at h
      by_cases hd : d = c
      · rw [if_pos hd] at h
        subst hd
        simpa using ih h
      · rw [if_neg hd] at h
        exact absurd h (by simp)

lemma stripLit_ne_head {l : Char} {ls : List Char} {c : Char} {cs : List Char}
    (h : c ≠ l) : stripLit (l :: ls) (c :: cs) = none := by
  simp [stripLit, h]

lemma takeWhile_all_append {p : Char → Bool} :
    ∀ {l : List Char} {c : Char} {r : List Char},
      (∀ x ∈ l, p x = true) → p c = false →
      (l ++ c :: r).takeWhile p = l := by
  intro l
  induction l with
  | nil =>
    intro c r _ hc
    simp [List.takeWhile, hc]
  | cons a as ih =>
    intro c r hl hc
    have ha : p a = true := hl a (List.mem_cons_self _ _)
    simp only [List.cons_append, List.takeWhile_cons, ha, if_true]
    rw [ih (fun x hx => hl x (List.mem_cons_of_mem _ hx)) hc]

lemma dropWhile_all_append {p : Char → Bool} :
    ∀ {l : List Char} {c : Char} {r : List Char},
      (∀ x ∈ l, p x = true) → p c = false →
      (l ++ c :: r).dropWhile p = c :: r := by
  intro l
  induction l with
  | nil =>
    intro c r _ hc
    simp [List.dropWhile, hc]
  | cons a as ih =>
    intro c r hl hc
    have ha : p a = true := hl a (List.mem_cons_self _ _)
    simp only [List.cons_append, List.dropWhile_cons, ha, if_true]
    exact ih (fun x hx => hl x (List.mem_cons_of_mem _ hx)) hc

lemma takeWhile_head_ne_nil {p : Char → Bool} {d : Char} {l : List Char}
    (hd : p d = true) : (d :: l).takeWhile p ≠ [] := by
  simp [List.takeWhile_cons, hd]

lemma matchAt_complete {cs : List Char} (h : patternAt cs) : ∃ g, matchAt cs = some g := by
  obtain ⟨dot, kind, name, digits, rest, hcs, hkind, hname, hnofs, hdig, hdigall⟩ := h
  subst hcs
  have hnofsB : ∀ x ∈ name, notSlash x = true := fun x hx => by
    simpa [notSlash] using hnofs x hx
  have hsl : notSlash '/' = false := by decide
  have hnameE : name.isEmpty = false := by
    cases name with
    | nil => exact absurd rfl hname
    | cons a as => rfl
  obtain ⟨d, ds, rfl⟩ : ∃ d ds, digits = d :: ds := by
    cases digits with
    | nil => exact absurd rfl hdig
    | cons d ds => exact ⟨d, ds, rfl⟩
  have hd : d.isDigit = true := hdigall d (List.mem_cons_self _ _)
  have huo : ¬(('u' : Char) = 'o') := by decide
  rcases hkind with rfl | rfl <;>
  · simp only [matchAt, stripLit, List.append_eq, List.cons_append, List.nil_append,
      List.append_assoc, reduceIte, huo, takeWhile_all_append hnofsB hsl,
      dropWhile_all_append hnofsB hsl, hnameE, hd, List.takeWhile_cons,
      List.isEmpty_cons, Bool.false_eq_true, if_false, if_true]
    exact ⟨_, rfl⟩

lemma matchAt_sound {cs : List Char} {g : String × String × String}
    (h : matchAt cs = some g) : patternAt cs := by
  simp only [matchAt] at h
  split at h
  · exact Option.noConfusion h
  · exact Option.noConfusion h
  · rename_i l1 head afterDot h1
    split at h
    · exact Option.noConfusion h
    · rename_i cs1 h2
      split at h
      · exact Option.noConfusion h
      · rename_i kp kind cs2 hkp
        split at h
        · exact Option.noConfusion h
        · rename_i hne
          split at h
          · exact Option.noConfusion h
          · rename_i cs4 h5
            split at h
            · exact Option.noConfusion h
            · rename_i hdne
              have hcs : cs = "github".data ++ (head :: afterDot) := stripLit_sound h1
              have hafter : afterDot = "com/".data ++ cs1 := stripLit_sound h2
              have hsplit2 : cs2 =
                  cs2.takeWhile notSlash ++ cs2.dropWhile notSlash :=
                (List.takeWhile_append_dropWhile _ _).symm
              have h5' : cs2.dropWhile notSlash = "/projects/".data ++ cs4 :=
                stripLit_sound h5
              have hsplit4 : cs4 =
                  cs4.takeWhile Char.isDigit ++ cs4.dropWhile Char.isDigit :=
                (List.takeWhile_append_dropWhile _ _).symm
              have hnameNil : cs2.takeWhile notSlash ≠ [] := by
                intro hnil
                rw [hnil] at hne
                exact hne rfl
              have hdigNil : cs4.takeWhile Char.isDigit ≠ [] := by
                intro hnil
                rw [hnil] at hdne
                exact hdne rfl
              have hnameAll : ∀ c ∈ cs2.takeWhile notSlash, c ≠ '/' := by
                intro c hc
                have := List.mem_takeWhile_imp hc
                simpa [notSlash] using this
              have hdigAll : ∀ c ∈ cs4.takeWhile Char.isDigit, c.isDigit = true :=
                fun c hc => List.mem_takeWhile_imp hc
              have hkind2 : (kind = "orgs" ∧ cs1 = "orgs/".data ++ cs2) ∨
                  (kind = "users" ∧ cs1 = "users/".data ++ cs2) := by
                split at hkp
                · rename_i r horgs
                  have := hkp
                  simp only [Option.some.injEq, Prod.mk.injEq] at this
                  obtain ⟨hk, hr⟩ := this
                  subst hr
                  exact Or.inl ⟨hk.symm, stripLit_sound horgs⟩
                · split at hkp
                  · rename_i r husers
                    have := hkp
                    simp only [Option.some.injEq, Prod.mk.injEq] at this
                    obtain ⟨hk, hr⟩ := this
                    subst hr
                    exact Or.inr ⟨hk.symm, stripLit_sound husers⟩
                  · exact Option.noConfusion hkp
              rcases hkind2 with ⟨rfl, hcs1⟩ | ⟨rfl, hcs1⟩
              · refine ⟨head, "orgs", cs2.takeWhile notSlash,
                  cs4.takeWhile Char.isDigit, cs4.dropWhile Char.isDigit,
                  ?_, Or.inl rfl, hnameNil, hnameAll, hdigNil, hdigAll⟩
                rw [hcs, hafter, hcs1]
                conv_lhs => rw [hsplit2, h5']
                conv_lhs => rw [hsplit4]
                simp only [List.cons_append, List.append_assoc]
                rfl
              · refine ⟨head, "users", cs2.takeWhile notSlash,
                  cs4.takeWhile Char.isDigit, cs4.dropWhile Char.isDigit,
                  ?_, Or.inr rfl, hnameNil, hnameAll, hdigNil, hdigAll⟩
                rw [hcs, hafter, hcs1]
                conv_lhs => rw [hsplit2, h5']
                conv_lhs => rw [hsplit4]
                simp only [List.cons_append, List.append_assoc]
                rfl

lemma matchAt_nil : matchAt [] = none := rfl

lemma searchAux_some_iff :
    ∀ (cs : List Char), (∃ g, searchAux cs = some g) ↔ ∃ i g, matchAt (cs.drop i) = some g := by
  intro cs
  induction cs with
  | nil =>
    constructor
    · rintro ⟨g, hg⟩
      exact absurd hg (by simp [searchAux])
    · rintro ⟨i, g, hg⟩
      rw [List.drop_nil] at hg
      exact absurd hg (by simp [matchAt_nil])
  | cons c rest ih =>
    simp only [searchAux]
    cases hm : matchAt (c :: rest) with
    | some g =>
      constructor
      · rintro ⟨g', _⟩
        exact ⟨0, g, hm⟩
      · rintro ⟨i, g', _⟩
        exact ⟨g, rfl⟩
    | none =>
      constructor
      · rintro ⟨g, hg⟩
        obtain ⟨i, g', hg'⟩ := ih.mp ⟨g, hg⟩
        exact ⟨i + 1, g', by simpa using hg'⟩
      · rintro ⟨i, g', hg'⟩
        cases i with
        | zero => rw [List.drop_zero] at hg'; exact absurd hg' (by simp [hm])
        | succ j =>
          have : matchAt (rest.drop j) = some g' := by simpa using hg'
          exact ih.mpr ⟨j, g', this⟩

lemma lastNamed_append (target : String) :
    ∀ (l1 l2 : List FVNode),
      lastNamed target (l1 ++ l2) =
        match lastNamed target l2 with
        | some v => some v
        | none => lastNamed target l1 := by
  intro l1 l2
  induction l1 with
  | nil =>
    simp only [List.nil_append]
    cases lastNamed target l2 <;> rfl
  | cons a l1 ih =>
    simp only [List.cons_append, lastNamed, List.append_eq]
    rw [ih]
    cases lastNamed target l2 <;> cases lastNamed target l1 <;> rfl

lemma filterMap_eq_nil_of_lastNamed {target : String} :
    ∀ {nodes : List FVNode}, lastNamed target nodes = none →
      nodes.filterMap (nodeNamedValue target) = [] := by
  intro nodes
  induction nodes with
  | nil => intro _; rfl
  | cons node rest ih =>
    intro h
    simp only [lastNamed] at h
    cases hr : lastNamed target rest with
    | some w => rw [hr] at h; exact Option.noConfusion h
    | none =>
      rw [hr] at h
      have h' : nodeNamedValue target node = none := h
      simp [List.filterMap_cons, h', ih hr]

lemma re_search_none_iff (url : String) :
    re_search url = none ↔ ¬matches_pattern url := by
  unfold re_search matches_pattern
  constructor
  · rintro h ⟨i, hp⟩
    obtain ⟨g, hg⟩ := matchAt_complete hp
    obtain ⟨g', hg'⟩ := (searchAux_some_iff url.data).mpr ⟨i, g, hg⟩
    rw [h] at hg'
    exact Option.noConfusion hg'
  · intro h
    cases hs : searchAux url.data with
    | none => rfl
    | some g =>
      obtain ⟨i, g', hg'⟩ := (searchAux_some_iff url.data).mp ⟨g, hs⟩
      exact absurd ⟨i, matchAt_sound hg'⟩ h

lemma matchAt_kind {cs : List Char} {k n d : String}
    (h : matchAt cs = some (k, n, d)) : k = "orgs" ∨ k = "users" := by
  simp only [matchAt] at h
  split at h
  · exact Option.noConfusion h
  · exact Option.noConfusion h
  · split at h
    · exact Option.noConfusion h
    · rename_i cs1 h2
      split at h
      · exact Option.noConfusion h
      · rename_i kp kind cs2 hkp
        have hkv : kind = "orgs" ∨ kind = "users" := by
          split at hkp
          · rename_i r horgs
            have := hkp
            simp only [Option.some.injEq, Prod.mk.injEq] at this
            exact Or.inl this.1.symm
          · split at hkp
            · rename_i r husers
              have := hkp
              simp only [Option.some.injEq, Prod.mk.injEq] at this
              exact Or.inr this.1.symm
            · exact Option.noConfusion hkp
        split at h
        · exact Option.noConfusion h
        · split at h
          · exact Option.noConfusion h
          · split at h
            · exact Option.noConfusion h
            · have := h
              simp only [Option.some.injEq, Prod.mk.injEq] at this
              rw [← this.1]
              exact hkv

lemma searchAux_kind :
    ∀ {cs : List Char} {k n d : String},
      searchAux cs = some (k, n, d) → k = "orgs" ∨ k = "users" := by
  intro cs
  induction cs with
  | nil => intro k n d h; exact absurd h (by simp [searchAux])
  | cons c rest ih =>
    intro k n d h
    simp only [searchAux] at h
    cases hm : matchAt (c :: rest) with
    | some g =>
      rw [hm] at h
      have hg : g = (k, n, d) := by simpa using h
      subst hg
      exact matchAt_kind hm
    | none =>
      rw [hm] at h
      exact ih h

/-! ## Claim theorems -/

/-- C1: for every item whose field-value list has both a "Kind" field and a
"Type" field with non-empty coerced values (and whose Type values differ
from its Kind values), `extract_type` returns one of the Kind values and
never a Type value, regardless of the order of the fields in the list. -/
theorem extract_type_kind_priority (item : Item)
    (hk : values_named (pyLower KIND_FIELD) item ≠ [])
    (_ht : values_named (pyLower TYPE_FIELD) item ≠ [])
    (hdisj : ∀ v ∈ values_named (pyLower TYPE_FIELD) item,
      v ∉ values_named (pyLower KIND_FIELD) item) :
    extract_type item ∈ values_named (pyLower KIND_FIELD) item ∧
      extract_type item ∉ values_named (pyLower TYPE_FIELD) item := by
  obtain ⟨v, hv⟩ : ∃ v, lastNamed (pyLower KIND_FIELD) (field_entries item) = some v := by
    cases hl : lastNamed (pyLower KIND_FIELD) (field_entries item) with
    | some v => exact ⟨v, rfl⟩
    | none =>
      exfalso
      exact hk (by simpa [values_named] using filterMap_eq_nil_of_lastNamed hl)
  have het := extract_type_of_kind hv
  have hmem : extract_type item ∈ values_named (pyLower KIND_FIELD) item := by
    rw [het]
    simpa [values_named] using lastNamed_mem hv
  refine ⟨hmem, fun hmen => ?_⟩
  exact hdisj _ hmen hmem

/-- C1 witness: a concrete item carrying a Type field before a Kind field. -/
def c1_item : Item :=
  ⟨some [.entry "Type" (some "Feature") none none,
    .entry "Kind" (some "Bug") none none], none⟩

theorem extract_type_kind_priority_witness :
    extract_type c1_item ∈ values_named (pyLower KIND_FIELD) c1_item ∧
      extract_type c1_item ∉ values_named (pyLower TYPE_FIELD) c1_item :=
  extract_type_kind_priority c1_item (by decide) (by decide) (by decide)

/-- C2: the paginated fetch is a fold over the response pages: it returns
exactly the total item sequence whenever the pages paginate it (every page
but the last reports more pages, the last does not), so any two page-size
splittings of the same total sequence give the same result. -/
theorem get_project_items_pagination {α : Type} (pages1 pages2 : List (Page α))
    (total : List α) (h1 : Paginates pages1 total) (h2 : Paginates pages2 total) :
    get_project_items pages1 = total ∧
      get_project_items pages1 = get_project_items pages2 := by
  refine ⟨get_project_items_eq h1, ?_⟩
  rw [get_project_items_eq h1, get_project_items_eq h2]

/-- C2 witness fixture: a 120-item sequence split into pages of 50, 50, 20. -/
def pages_50_50_20 : List (Page Nat) :=
  [⟨(List.range 120).take 50, true, some "cursor1"⟩,
   ⟨((List.range 120).drop 50).take 50, true, some "cursor2"⟩,
   ⟨(List.range 120).drop 100, false, none⟩]

/-- C2 witness fixture: the same 120 items split into pages of 60 and 60. -/
def pages_60_60 : List (Page Nat) :=
  [⟨(List.range 120).take 60, true, some "cursorA"⟩,
   ⟨(List.range 120).drop 60, false, none⟩]

theorem get_project_items_pagination_witness :
    get_project_items pages_50_50_20 = List.range 120 ∧
      get_project_items pages_50_50_20 = get_project_items pages_60_60 := by
  have h1 : Paginates pages_50_50_20 (List.range 120) := by
    have e : List.range 120 =
        (List.range 120).take 50 ++
          (((List.range 120).drop 50).take 50 ++ (List.range 120).drop 100) := by
      decide
    rw [e]
    exact Paginates.cons _ _ _ rfl (Paginates.cons _ _ _ rfl (Paginates.last _ rfl))
  have h2 : Paginates pages_60_60 (List.range 120) := by
    have e : List.range 120 = (List.range 120).take 60 ++ (List.range 120).drop 60 := by
      decide
    rw [e]
    exact Paginates.cons _ _ _ rfl (Paginates.last _ rfl)
  exact get_project_items_pagination pages_50_50_20 pages_60_60 (List.range 120) h1 h2

/-- C3 counterexample: at HTTP status 200 with decoded body
`{"data": {}}` and no errors, `run_query` returns the whole decoded
response, which differs from the `data` payload `{}` the claim promises. -/
theorem run_query_whole_response_cex :
    run_query 200 "" (Json.obj [("data", Json.obj [])]) =
      Except.ok (Json.obj [("data", Json.obj [])]) ∧
      Json.obj [("data", Json.obj [])] ≠ Json.obj [] := by
  refine ⟨rfl, fun h => ?_⟩
  simp at h

/-- C3 amended: `run_query` errors exactly on a non-200 status (carrying
status and body) or on a top-level "errors" key (carrying the raw errors
value); in every other case it returns the WHOLE decoded response (the
caller indexes the "data" key itself). -/
theorem run_query_behavior (status : Nat) (body : String) (decoded : Json) :
    (status ≠ 200 → run_query status body decoded = .error (.transport status body)) ∧
    (∀ errs, status = 200 → decoded.getKey "errors" = some errs →
      run_query status body decoded = .error (.graphql errs)) ∧
    (status = 200 → decoded.getKey "errors" = none →
      run_query status body decoded = .ok decoded) := by
  refine ⟨fun h => ?_, fun errs h200 herr => ?_, fun h200 herr => ?_⟩
  · simp [run_query, h]
  · subst h200; simp [run_query, herr]
  · subst h200; simp [run_query, herr]

theorem run_query_behavior_witness :
    run_query 404 "Not Found" Json.null = .error (.transport 404 "Not Found") ∧
    run_query 200 "" (Json.obj [("errors", Json.arr [])]) =
      .error (.graphql (Json.arr [])) ∧
    run_query 200 "" (Json.obj [("data", Json.null)]) =
      .ok (Json.obj [("data", Json.null)]) :=
  ⟨(run_query_behavior 404 "Not Found" Json.null).1 (by decide),
   (run_query_behavior 200 "" (Json.obj [("errors", Json.arr [])])).2.1
     (Json.arr []) rfl rfl,
   (run_query_behavior 200 "" (Json.obj [("data", Json.null)])).2.2 rfl rfl⟩

/-- C4 counterexample: on an item with no custom fields and no content, the
sentinels actually returned are the Portuguese "Desconhecido" and
"Sem Scope", not the claimed "Unknown" and "No Scope". -/
theorem extract_sentinel_cex :
    extract_type ⟨some [], none⟩ = "Desconhecido" ∧
    extract_scope ⟨some [], none⟩ = "Sem Scope" ∧
    "Desconhecido" ≠ "Unknown" ∧ "Sem Scope" ≠ "No Scope" :=
  ⟨rfl, rfl, by decide, by decide⟩

/-- C4 amended: when no "Kind"/"Type" field has a non-empty coerced value
and the content has no issueType (or one with an absent or empty name),
`extract_type` falls back to the sentinel "Desconhecido"; symmetrically,
without a non-empty "Scope" field `extract_scope` returns "Sem Scope".
Neither sentinel is the empty string. -/
theorem extract_sentinels (item : Item)
    (hk : values_named (pyLower KIND_FIELD) item = [])
    (ht : values_named (pyLower TYPE_FIELD) item = [])
    (hit : ∀ c nm, item.content = some c → c.issueType = some nm → pyTruthy nm = none) :
    extract_type item = "Desconhecido" ∧
    (values_named (pyLower SCOPE_FIELD) item = [] → extract_scope item = "Sem Scope") ∧
    "Desconhecido" ≠ "" ∧ "Sem Scope" ≠ "" := by
  refine ⟨?_, fun hs => ?_, by decide, by decide⟩
  · have hkn : lastNamed (pyLower KIND_FIELD) (field_entries item) = none := by
      exact lastNamed_eq_none (by simpa [values_named] using hk)
    have htn : lastNamed (pyLower TYPE_FIELD) (field_entries item) = none := by
      exact lastNamed_eq_none (by simpa [values_named] using ht)
    unfold extract_type
    rw [scan_kind_type_fst, scan_kind_type_snd, hkn, htn]
    cases hc : item.content with
    | none => rfl
    | some c =>
      show (match c.issueType with
        | some nm => (pyTruthy nm).getD "Desconhecido"
        | none => "Desconhecido") = "Desconhecido"
      cases hi : c.issueType with
      | none => rfl
      | some nm => simp [hit c nm hc hi]
  · unfold extract_scope
    rw [find_scope_eq_head]
    have hnil : (field_entries item).filterMap (nodeNamedValue (pyLower SCOPE_FIELD)) = [] := by
      simpa [values_named] using hs
    rw [hnil]
    rfl

/-- C4 witness fixture: one unrelated custom field, no issue content. -/
def c4_item : Item := ⟨some [.entry "Status" (some "Done") none none], none⟩

theorem extract_sentinels_witness :
    extract_type c4_item = "Desconhecido" ∧
    (values_named (pyLower SCOPE_FIELD) c4_item = [] →
      extract_scope c4_item = "Sem Scope") ∧
    "Desconhecido" ≠ "" ∧ "Sem Scope" ≠ "" :=
  extract_sentinels c4_item (by decide) (by decide)
    (fun c nm hc _ => Option.noConfusion hc)

/-- C5: `extract_scope` is total over well-formed items (entries the loop
skips are modelled by the `FVNode.skipEntry` and falsy-value cases) and
always returns a non-empty string; being a pure function its result on the
same item is stable across calls. -/
theorem extract_scope_total (item : Item) :
    extract_scope item ≠ "" ∧ extract_scope item = extract_scope item := by
  refine ⟨?_, rfl⟩
  unfold extract_scope
  cases hf : find_scope (field_entries item) with
  | none => decide
  | some v =>
    rw [find_scope_eq_head] at hf
    have hmem : v ∈ (field_entries item).filterMap (nodeNamedValue (pyLower SCOPE_FIELD)) :=
      List.mem_of_mem_head? (by rw [hf]; rfl)
    obtain ⟨node, _, hnode⟩ := List.mem_filterMap.mp hmem
    exact nodeNamedValue_ne_empty hnode

/-- C6 counterexample: with two "Kind" fields valued "A" then "B" in list
order, `extract_type` returns "B" — the last match — not "A", the first, so
the scan does not return at the first non-empty match. -/
theorem extract_type_first_kind_cex :
    extract_type ⟨some [.entry "Kind" (some "A") none none,
      .entry "Kind" (some "B") none none], none⟩ = "B" ∧
      ("B" : String) ≠ "A" :=
  ⟨rfl, by decide⟩

/-- C6 amended: when the field-value list contains two or more "Kind"
fields with non-empty coerced values, `extract_type` returns the value of
the LAST such field in list order (each match overwrites the previous
one). -/
theorem extract_type_last_kind (item : Item) (pre suf : List FVNode)
    (node : FVNode) (v : String)
    (hsplit : field_entries item = pre ++ node :: suf)
    (hnode : nodeNamedValue (pyLower KIND_FIELD) node = some v)
    (hsuf : ∀ n ∈ suf, nodeNamedValue (pyLower KIND_FIELD) n = none) :
    extract_type item = v := by
  apply extract_type_of_kind
  rw [hsplit, lastNamed_append]
  have hsufn : lastNamed (pyLower KIND_FIELD) suf = none := by
    cases hl : lastNamed (pyLower KIND_FIELD) suf with
    | none => rfl
    | some w =>
      obtain ⟨n, hn, hval⟩ := List.mem_filterMap.mp (lastNamed_mem hl)
      rw [hsuf n hn] at hval
      exact Option.noConfusion hval
  simp [lastNamed, hsufn, hnode]

theorem extract_type_last_kind_witness :
    extract_type ⟨some [.entry "Kind" (some "X") none none,
      .entry "Kind" (some "Y") none none,
      .entry "Type" (some "Z") none none], none⟩ = "Y" :=
  extract_type_last_kind _ [.entry "Kind" (some "X") none none]
    [.entry "Type" (some "Z") none none] (.entry "Kind" (some "Y") none none) "Y"
    rfl (by decide) (by decide)

/-- C7: the `team_metrics.py` date filter is inclusive at both ends: an
issue closed at "2025-10-07T23:59:59Z" passes with
START_DATE = "2025-10-07", one closed at "2025-10-06T23:59:59Z" does not,
and in general an item with truthy content and closedAt passes exactly when
START_DATE <= calendar date of closedAt <= END_DATE under fixed-width
lexicographic string comparison. -/
theorem date_filter_inclusive :
    passes_date_filter ⟨none, some ⟨some "2025-10-07T23:59:59Z", none⟩⟩ = true ∧
    passes_date_filter ⟨none, some ⟨some "2025-10-06T23:59:59Z", none⟩⟩ = false ∧
    ∀ (item : Item) (issue : IssueContent) (s : String),
      item.content = some issue → issue.closedAt = some s → s.data ≠ [] →
      (passes_date_filter item = true ↔
        (pyLe START_DATE (iso_date s) = true ∧ pyLe (iso_date s) END_DATE = true)) := by
  refine ⟨by decide, by decide, ?_⟩
  intro item issue s hc hs hne
  have hE : s.data.isEmpty = false := by
    cases hd : s.data with
    | nil => exact absurd hd hne
    | cons a as => rfl
  simp [passes_date_filter, hc, hs, hE, Bool.and_eq_true]

theorem date_filter_inclusive_witness :
    passes_date_filter ⟨none, some ⟨some "2025-11-15T12:00:00Z", none⟩⟩ = true ↔
      (pyLe START_DATE (iso_date "2025-11-15T12:00:00Z") = true ∧
        pyLe (iso_date "2025-11-15T12:00:00Z") END_DATE = true) :=
  date_filter_inclusive.2.2 ⟨none, some ⟨some "2025-11-15T12:00:00Z", none⟩⟩
    ⟨some "2025-11-15T12:00:00Z", none⟩ "2025-11-15T12:00:00Z" rfl rfl (by decide)

/-- C8: for every non-empty report group, the per-type percentages
`100 * count / total` over the group's type counter sum exactly to 100 in
exact rational arithmetic, and the counter's counts sum to the group's
size, so every issue of the group is counted exactly once. -/
theorem report_percentages (types : List String) (h : types ≠ []) :
    ((type_counter types).map (fun p => percentage p.2 types.length)).sum = 100 ∧
    ((type_counter types).map (fun p => p.2)).sum = types.length := by
  have hsum := sum_counts types
  constructor
  · unfold type_counter percentage
    rw [List.map_map]
    have hT : (types.length : ℚ) ≠ 0 := by
      simpa using fun hlen => h (List.length_eq_zero.mp hlen)
    have e1 : ((uniq types).map
          ((fun p : String × Nat => 100 * (p.2 : ℚ) / (types.length : ℚ)) ∘
            (fun t => (t, types.count t)))).sum =
        ((uniq types).map
          (fun t => ((types.count t : ℚ)) * ((100 : ℚ) / (types.length : ℚ)))).sum := by
      congr 1
      apply List.map_congr_left
      intro a _
      simp [Function.comp]
      ring
    rw [e1, List.sum_map_mul_right]
    have e2 : ((uniq types).map (fun t => ((types.count t : ℕ) : ℚ))).sum =
        ((types.length : ℕ) : ℚ) := by
      rw [show ((uniq types).map (fun t => ((types.count t : ℕ) : ℚ))) =
        (((uniq types).map (fun t => types.count t)).map (fun n : ℕ => (n : ℚ))) by
          rw [List.map_map]; rfl]
      rw [← Nat.cast_list_sum, hsum]
    rw [e2]
    field_simp
  · unfold type_counter
    rw [List.map_map]
    exact hsum

theorem report_percentages_witness :
    ((type_counter ["Bug", "Bug", "Feature"]).map
      (fun p => percentage p.2 (["Bug", "Bug", "Feature"] : List String).length)).sum
        = 100 ∧
    ((type_counter ["Bug", "Bug", "Feature"]).map (fun p => p.2)).sum =
      (["Bug", "Bug", "Feature"] : List String).length :=
  report_percentages ["Bug", "Bug", "Feature"] (by simp)

lemma get_dispatch {url kind name number : String}
    (hr : re_search url = some (kind, name, number)) :
    get_project_id_from_url url =
      (if kind = "orgs" then Except.ok (.org name (strToNat number))
       else Except.ok (.user name (strToNat number))) := by
  unfold get_project_id_from_url
  rw [hr]

/-- C9: `get_project_id_from_url` raises `ValueError` exactly when the URL
contains no substring matching `github.com/(orgs|users)/<name>/projects/<number>`;
when a match exists, the captured kind is "orgs" or "users" and the function
dispatches to the organization query on "orgs" and to the user query
otherwise, binding the captured name and the integer value of the captured
digits. -/
theorem project_url_resolution (url : String) :
    (get_project_id_from_url url =
        Except.error ("URL inválida de project: " ++ url) ↔ ¬matches_pattern url) ∧
    (∀ kind name number, re_search url = some (kind, name, number) →
      (kind = "orgs" ∨ kind = "users") ∧
      get_project_id_from_url url =
        (if kind = "orgs" then Except.ok (.org name (strToNat number))
         else Except.ok (.user name (strToNat number)))) := by
  constructor
  · constructor
    · intro h
      rw [← re_search_none_iff]
      cases hr : re_search url with
      | none => rfl
      | some g =>
        obtain ⟨kind, name, number⟩ := g
        have hval := get_dispatch hr
        rw [hval] at h
        by_cases hk : kind = "orgs"
        · rw [if_pos hk] at h; exact Except.noConfusion h
        · rw [if_neg hk] at h; exact Except.noConfusion h
    · intro h
      have hn : re_search url = none := (re_search_none_iff url).mpr h
      unfold get_project_id_from_url
      rw [hn]
  · intro kind name number hr
    exact ⟨searchAux_kind hr, get_dispatch hr⟩

theorem project_url_resolution_witness :
    get_project_id_from_url "https://github.com/orgs/stack-spot/projects/251" =
      Except.ok (ProjectQuery.org "stack-spot" 251) := by
  have h := (project_url_resolution "https://github.com/orgs/stack-spot/projects/251").2
    "orgs" "stack-spot" "251" (by decide)
  rw [h.2]
  rfl

/-- C10: field names are compared after stripping surrounding whitespace in
addition to lowercasing, so a field named "  KIND  " matches the Kind
lookup exactly as one named "kind" does, and likewise "  SCOPE  " matches
the Scope lookup. -/
theorem field_name_strip_casefold (v : String) (hv : v ≠ "")
    (content : Option IssueContent) :
    extract_type ⟨some [.entry "  KIND  " (some v) none none], content⟩ = v ∧
    extract_type ⟨some [.entry "kind" (some v) none none], content⟩ = v ∧
    extract_scope ⟨some [.entry "  SCOPE  " (some v) none none], content⟩ = v := by
  have h1 : fieldValueOf (some v) none none = some v := by
    simp [fieldValueOf, pyTruthy_of_ne_empty hv]
  have hk1 : nodeNamedValue (pyLower KIND_FIELD)
      (.entry "  KIND  " (some v) none none) = some v := by
    simp [nodeNamedValue, h1,
      show pyLower (pyStrip "  KIND  ") = pyLower KIND_FIELD from by decide]
  have hk2 : nodeNamedValue (pyLower KIND_FIELD)
      (.entry "kind" (some v) none none) = some v := by
    simp [nodeNamedValue, h1,
      show pyLower (pyStrip "kind") = pyLower KIND_FIELD from by decide]
  have hs1 : nodeNamedValue (pyLower SCOPE_FIELD)
      (.entry "  SCOPE  " (some v) none none) = some v := by
    simp [nodeNamedValue, h1,
      show pyLower (pyStrip "  SCOPE  ") = pyLower SCOPE_FIELD from by decide]
  refine ⟨extract_type_of_kind ?_, extract_type_of_kind ?_, ?_⟩
  · simp [lastNamed, field_entries, hk1]
  · simp [lastNamed, field_entries, hk2]
  · simp [extract_scope, find_scope, field_entries, hs1]

theorem field_name_strip_casefold_witness :
    extract_type ⟨some [.entry "  KIND  " (some "Bug") none none], none⟩ = "Bug" ∧
    extract_type ⟨some [.entry "kind" (some "Bug") none none], none⟩ = "Bug" ∧
    extract_scope ⟨some [.entry "  SCOPE  " (some "Bug") none none], none⟩ = "Bug" :=
  field_name_strip_casefold "Bug" (by decide) none
